import Mathlib

/-!
Verification of the block52 typescript-deck library: a 52-card deck with
seeded Fisher-Yates shuffling, SHA-256 state hashes and a string
serialization format.  The definitions below are a shallow embedding of
the TypeScript class `Deck` (src/deck.ts) and its `Card` model
(src/types.ts).  JavaScript numbers that only ever hold integers are
modelled as `Nat`/`Int`; JavaScript `undefined` flowing out of
out-of-range array reads is modelled as `Option`; thrown exceptions are
modelled as `Except` errors.
-/

namespace Block52

/-- The `SUIT` enum of src/types.ts: CLUBS = 1, DIAMONDS = 2, HEARTS = 3,
SPADES = 4, modelled as the corresponding natural numbers. -/
def CLUBS : Nat := 1

/-- DIAMONDS = 2 in the `SUIT` enum. -/
def DIAMONDS : Nat := 2

/-- HEARTS = 3 in the `SUIT` enum. -/
def HEARTS : Nat := 3

/-- SPADES = 4 in the `SUIT` enum. -/
def SPADES : Nat := 4

/-- The `Card` interface of src/types.ts.  `value` is an `Int` because
`13 * (suit - 1) + (rank - 1)` can be negative for rank 0, which the
parser does not rule out. -/
structure Card where
  suit : Nat
  rank : Nat
  value : Int
  mnemonic : String
deriving DecidableEq, Repr

/-- A SHA-256 digest as produced by the external node `crypto` module.
The library is outside this repository; it is modelled by its preimage:
`sha256 s` stands for the lowercase-hex SHA-256 digest of the UTF-8
bytes of `s`, and equal inputs yield equal digests.  `zeroHash` is the
distinguished `ZERO_HASH` sentinel constant of src/deck.ts, which is not
a digest of any input. -/
inductive Digest where
  | zeroHash : Digest
  | sha256 : String → Digest
deriving DecidableEq, Repr

/-- The errors thrown by src/deck.ts, one constructor per `throw` site
(messages carried as data):
`invalidDeckLength` = "Deck must contain 52 cards.",
`invalidMnemonic s` = "Invalid card mnemonic: s",
`invalidSuitChar c` = "Invalid suit character: c",
`seedLengthMismatch m n` = "Seed length (m) must match cards length (n)",
`undefinedRead` = the runtime TypeError raised when `createHash` maps
`card => card.mnemonic` over an array slot holding `undefined`. -/
inductive DeckErr where
  | invalidDeckLength : DeckErr
  | invalidMnemonic : String → DeckErr
  | invalidSuitChar : Char → DeckErr
  | seedLengthMismatch : Nat → Nat → DeckErr
  | undefinedRead : DeckErr
deriving DecidableEq, Repr

/-- `rankMap` of `getCardMnemonic`: 1↦"A", 11↦"J", 12↦"Q", 13↦"K",
any other rank falls through to its decimal string. -/
def rankSymbol (rank : Nat) : String :=
  if rank = 1 then "A"
  else if rank = 11 then "J"
  else if rank = 12 then "Q"
  else if rank = 13 then "K"
  else toString rank

/-- `suitMap` of `getCardMnemonic`.  Looking up a key outside 1..4 gives
JavaScript `undefined`, which the template literal then renders as the
string "undefined"; `Option.getD` reproduces that. -/
def suitSymbol (suit : Nat) : Option String :=
  if suit = 1 then some "C"
  else if suit = 2 then some "D"
  else if suit = 3 then some "H"
  else if suit = 4 then some "S"
  else none

/-- `Deck.getCardMnemonic(suit, rank)`: rank symbol followed by suit
symbol. -/
def getCardMnemonic (suit rank : Nat) : String :=
  rankSymbol rank ++ (suitSymbol suit).getD "undefined"

/-- Rank letters accepted by the first group `[AJQKajqk]` of the
mnemonic regular expression. -/
def isRankLetter (c : Char) : Bool :=
  c = 'A' || c = 'J' || c = 'Q' || c = 'K' || c = 'a' || c = 'j' || c = 'q' || c = 'k'

/-- Suit letters accepted by the second group `[CDHS]` of the mnemonic
regular expression under the case-insensitive flag. -/
def isSuitChar (c : Char) : Bool :=
  c = 'C' || c = 'D' || c = 'H' || c = 'S' || c = 'c' || c = 'd' || c = 'h' || c = 's'

/-- The first group of `^([AJQKajqk]|[0-9]+)([CDHS])$/i`: a single rank
letter, or a non-empty run of decimal digits. -/
def rankPart : List Char → Bool
  | [] => false
  | [c] => isRankLetter c || c.isDigit
  | cs => cs.all Char.isDigit

/-- `mnemonic.match(/^([AJQKajqk]|[0-9]+)([CDHS])$/i)`: the match is
forced to put the last character in the suit group and everything before
it in the rank group, since no suit letter is a digit or rank letter.
Returns the two captured groups on success. -/
def matchMnemonic (m : String) : Option (String × Char) :=
  match m.data.reverse with
  | [] => none
  | sc :: rrev =>
    if isSuitChar sc && rankPart rrev.reverse then
      some (String.mk rrev.reverse, sc)
    else none

/-- `parseInt(s, 10)` on a string of decimal digits. -/
def parseDigits (cs : List Char) : Nat :=
  cs.foldl (fun n c => 10 * n + (c.toNat - '0'.toNat)) 0

/-- The `switch (rankStr)` of `Deck.fromString` after `toUpperCase()`:
"A"↦1, "J"↦11, "Q"↦12, "K"↦13, default `parseInt`. -/
def rankOfString (s : String) : Nat :=
  if s = "A" then 1
  else if s = "J" then 11
  else if s = "Q" then 12
  else if s = "K" then 13
  else parseDigits s.data

/-- The `switch (suitChar)` of `Deck.fromString` after `toUpperCase()`. -/
def suitOfChar (c : Char) : Option Nat :=
  if c = 'C' then some CLUBS
  else if c = 'D' then some DIAMONDS
  else if c = 'H' then some HEARTS
  else if c = 'S' then some SPADES
  else none

/-- `Deck.fromString(mnemonic)`: parses a card mnemonic.  Note that the
returned card carries the input string itself as its `mnemonic`, and
`value = 13 * (suit - 1) + (rank - 1)` with no range check on the
parsed rank. -/
def fromString (m : String) : Except DeckErr Card :=
  match matchMnemonic m with
  | none => .error (.invalidMnemonic m)
  | some (rs, sc) =>
    let rankStr := String.mk (rs.data.map Char.toUpper)
    let rank := rankOfString rankStr
    match suitOfChar sc.toUpper with
    | none => .error (.invalidSuitChar sc.toUpper)
    | some suit =>
      .ok { suit := suit, rank := rank,
            value := 13 * ((suit : Int) - 1) + ((rank : Int) - 1),
            mnemonic := m }

/-- `initStandard52`: suits in enum order CLUBS..SPADES, ranks 1..13
within each suit. -/
def standardCards : List Card :=
  ((List.range 4).map (fun s =>
    (List.range 13).map (fun r =>
      { suit := s + 1, rank := r + 1,
        value := 13 * ((s + 1 : Int) - 1) + ((r + 1 : Int) - 1),
        mnemonic := getCardMnemonic (s + 1) (r + 1) : Card }))).flatten

/-- `Array.prototype.join("-")`, over the character data of the pieces. -/
def intercalChars : List (List Char) → List Char
  | [] => []
  | [t] => t
  | t :: ts => t ++ '-' :: intercalChars ts

/-- `mnemonics.join("-")` as used by `toString` and `createHash`. -/
def joinDash (ts : List String) : String :=
  String.mk (intercalChars (ts.map String.data))

/-- `String.prototype.split("-")` on character data: splits at every
dash, keeping empty pieces, and yields one (empty) piece for the empty
string. -/
def splitChars : List Char → List (List Char)
  | [] => [[]]
  | c :: cs =>
    match splitChars cs with
    | [] => [[]]
    | g :: gs => if c = '-' then [] :: g :: gs else (c :: g) :: gs

/-- `deck.split("-")`. -/
def jsSplitDash (s : String) : List String :=
  (splitChars s.data).map String.mk

/-- The joined mnemonic string hashed by `createHash()`. -/
def cardsAsString (cards : List Card) : String :=
  joinDash (cards.map Card.mnemonic)

/-- The `Deck` class state: `cards`, `hash`, `seedHash` and the private
cursor `top`. -/
structure Deck where
  cards : List Card
  hash : Digest
  seedHash : Digest
  top : Nat
deriving DecidableEq, Repr

/-- The deck produced by the no-argument constructor:
`initStandard52()` then `createHash()`, with `seedHash = ZERO_HASH`. -/
def freshDeck : Deck :=
  { cards := standardCards,
    hash := Digest.sha256 (cardsAsString standardCards),
    seedHash := Digest.zeroHash,
    top := 0 }

/-- `mnemonics[i].startsWith("[") && mnemonics[i].endsWith("]")`. -/
def bracketed (t : String) : Bool :=
  t.data.head? = some '[' && t.data.getLast? = some ']'

/-- `mnemonics[i].substring(1, mnemonics[i].length - 1)` (only reached
on bracketed tokens, whose length is at least 2). -/
def stripBrackets (t : String) : String :=
  String.mk (t.data.drop 1).dropLast

/-- The restoration loop of the constructor: walks the tokens with their
absolute index `i`, strips a bracketed token and records its index as
the cursor (`tp` is the cursor value accumulated so far; a later
bracketed token overwrites it), and parses each token with
`Deck.fromString`. -/
def parseTokens : List String → Nat → Nat → Except DeckErr (List Card × Nat)
  | [], _, tp => .ok ([], tp)
  | t :: ts, i, tp =>
    if bracketed t then
      match fromString (stripBrackets t) with
      | .error e => .error e
      | .ok c =>
        match parseTokens ts (i + 1) i with
        | .error e => .error e
        | .ok (cs, tp2) => .ok (c :: cs, tp2)
    else
      match fromString t with
      | .error e => .error e
      | .ok c =>
        match parseTokens ts (i + 1) tp with
        | .error e => .error e
        | .ok (cs, tp2) => .ok (c :: cs, tp2)

/-- The `Deck` constructor.  `none` models an absent argument; a
JavaScript `if (deck)` treats the empty string like an absent argument
(both are falsy), so `some ""` also builds a fresh standard deck.
Otherwise the string is split on "-", must give exactly 52 tokens, and
each token is parsed (brackets marking the cursor position).  In every
successful branch `hash` ends up as the SHA-256 of the joined mnemonics
and `seedHash` as `ZERO_HASH`. -/
def mkDeck (input : Option String) : Except DeckErr Deck :=
  match input with
  | none => .ok freshDeck
  | some s =>
    if s = "" then .ok freshDeck
    else
      let mnemonics := jsSplitDash s
      if mnemonics.length ≠ 52 then .error .invalidDeckLength
      else
        match parseTokens mnemonics 0 0 with
        | .error e => .error e
        | .ok (cs, tp) =>
          .ok { cards := cs,
                hash := Digest.sha256 (cardsAsString cs),
                seedHash := Digest.zeroHash,
                top := tp }

/-- `getNext()`: `return this.cards[this.top++]` — reads the slot at the
current cursor (JavaScript gives `undefined`, here `none`, past the
end) and increments the cursor by one. -/
def getNext (d : Deck) : Option Card × Deck :=
  (d.cards[d.top]?, { d with top := d.top + 1 })

/-- The `Array.from({ length: amount }, () => this.getNext())` part of
`deal`: `amount` successive `getNext()` calls, collecting the results. -/
def dealLoop : Nat → Deck → List (Option Card) × Deck
  | 0, d => ([], d)
  | n + 1, d =>
    let r := getNext d
    let rest := dealLoop n r.2
    (r.1 :: rest.1, rest.2)

/-- `deal(amount)`: first executes `this.top += amount`, then calls
`getNext()` `amount` times. -/
def deal (d : Deck) (amount : Nat) : List (Option Card) × Deck :=
  dealLoop amount { d with top := d.top + amount }

/-- A JavaScript array read `cards[j]` with a possibly negative index:
negative (or out-of-range) indices give `undefined`. -/
def jsGet (arr : List (Option Card)) (j : Int) : Option Card :=
  if j < 0 then none else arr.getD j.toNat none

/-- A JavaScript array write `cards[j] = v` with a possibly negative
index: a negative index creates a stray non-element property and leaves
the array elements unchanged. -/
def jsSet (arr : List (Option Card)) (j : Int) (v : Option Card) : List (Option Card) :=
  if j < 0 then arr else arr.set j.toNat v

/-- The swap `[cards[i], cards[j]] = [cards[j], cards[i]]`: the
right-hand side is read first, then `cards[i]` and `cards[j]` are
assigned. -/
def jsSwap (arr : List (Option Card)) (i : Nat) (j : Int) : List (Option Card) :=
  let vi := arr.getD i none
  let vj := jsGet arr j
  jsSet (arr.set i vj) j vi

/-- The Fisher-Yates loop of `shuffle`: `for (i = cards.length - 1;
i > 0; i--) { j = seed[i] % (i + 1); swap i j }`.  The counter is the
current index `i`; JavaScript `%` is the truncating remainder
`Int.tmod`, so a negative seed entry gives a negative `j`. -/
def fyLoop (seed : List Int) : List (Option Card) → Nat → List (Option Card)
  | arr, 0 => arr
  | arr, k + 1 =>
    fyLoop seed (jsSwap arr (k + 1) (Int.tmod (seed.getD (k + 1) 0) ((k : Int) + 2))) k

/-- Collapses the post-shuffle array: if some slot holds `undefined`,
`createHash`'s `card => card.mnemonic` raises a TypeError. -/
def optList : List (Option Card) → Option (List Card)
  | [] => some []
  | none :: _ => none
  | some c :: rest => (optList rest).map (fun cs => c :: cs)

/-- `seed.join("-")`: each number rendered in decimal. -/
def seedAsString (seed : List Int) : String :=
  joinDash (seed.map (fun n => toString n))

/-- `shuffle(seed)`.  An absent or empty seed is replaced by 52 fresh
pseudo-random integers — a non-deterministic path outside this model,
returned as `none`.  A supplied non-empty seed reaches the length check
unchanged: on mismatch the error is thrown before any field of the deck
is assigned.  Otherwise `seedHash` is computed from the joined seed,
the Fisher-Yates loop permutes the cards, and `createHash` recomputes
`hash` (raising `undefinedRead` if a slot was clobbered through a
negative index). -/
def shuffle (d : Deck) (seed : List Int) : Option (Except DeckErr Deck) :=
  if seed.isEmpty then none
  else if seed.length ≠ d.cards.length then
    some (.error (.seedLengthMismatch seed.length d.cards.length))
  else
    let sh := Digest.sha256 (seedAsString seed)
    match optList (fyLoop seed (d.cards.map some) (d.cards.length - 1)) with
    | none => some (.error .undefinedRead)
    | some cs =>
      some (.ok { cards := cs,
                  hash := Digest.sha256 (cardsAsString cs),
                  seedHash := sh,
                  top := d.top })

/-- The for-loop of `toString()`: mnemonic tokens in stored order, the
one at index `top` wrapped in square brackets; `i` is the absolute index
of the head card. -/
def tokensFrom : List Card → Nat → Nat → List String
  | [], _, _ => []
  | c :: cs, i, top =>
    (if i = top then "[" ++ c.mnemonic ++ "]" else c.mnemonic) :: tokensFrom cs (i + 1) top

/-- `toString()`: the bracketed token list joined with "-". -/
def Deck.serialize (d : Deck) : String :=
  joinDash (tokensFrom d.cards 0 d.top)

/-- Modelled from the spec: the Fisher-Yates permutation in the spec's
own words — "for i from 51 down to 1, swap the card at position i with
the card at position j = seed[i] mod (i+1)" — with mathematical
(Euclidean) mod, for comparison with the source loop `fyLoop`. -/
def swapL (l : List Card) (i j : Nat) : List Card :=
  match l[i]?, l[j]? with
  | some a, some b => (l.set i b).set j a
  | _, _ => l

/-- Modelled from the spec: the descending swap loop, counter = current
index `i`. -/
def specFYAux (seed : List Int) : List Card → Nat → List Card
  | l, 0 => l
  | l, k + 1 =>
    specFYAux seed (swapL l (k + 1) (Int.toNat (Int.emod (seed.getD (k + 1) 0) ((k : Int) + 2)))) k

/-- Modelled from the spec: the whole Fisher-Yates permutation of a card
list under a seed. -/
def specFY (seed : List Int) (l : List Card) : List Card :=
  specFYAux seed l (l.length - 1)

/-- `k` successive `getNext()` calls, keeping only the deck state. -/
def iterGetNext : Nat → Deck → Deck
  | 0, d => d
  | n + 1, d => iterGetNext n (getNext d).2

/-- A concrete varied 52-entry non-negative seed used as a test
fixture. -/
def seedW : List Int :=
  (List.range 52).map (fun n => ((n * 37 + 11) % 97 : Int))

/-- The deck obtained by shuffling a fresh deck with `seedW`, used as a
test fixture. -/
def deckW : Deck :=
  match shuffle freshDeck seedW with
  | some (.ok d) => d
  | _ => freshDeck

/-- Modelled from the spec: the mnemonic grammar
`(A|J|Q|K|[0-9]+)(C|D|H|S)`, case-insensitive, stated declaratively as
a decomposition of the string into a rank part followed by one suit
letter (rather than as the right-to-left matching algorithm). -/
def specPattern (m : String) : Prop :=
  ∃ rcs sc, m.data = rcs ++ [sc] ∧ isSuitChar sc = true ∧
    ((∃ c, rcs = [c] ∧ isRankLetter c = true) ∨ (rcs ≠ [] ∧ ∀ c ∈ rcs, c.isDigit = true))

end Block52

deriving instance DecidableEq for Except

namespace Block52

/-- Claim C10: constructing a `Deck` from the empty string takes the
same branch as an absent argument (both are falsy in `if (deck)`),
producing the fresh standard 52-card deck in canonical order with
cursor 0 — not an `InvalidDeckLength` failure. -/
theorem c10_empty_string_fresh :
    mkDeck (some "") = .ok freshDeck ∧ mkDeck none = .ok freshDeck ∧
      freshDeck.top = 0 ∧ freshDeck.cards = standardCards := by
  decide

/-- Claim C1 (code bug evaluation): on a fresh deck, `deal(1)` first
runs `this.top += 1` and then calls `getNext()` once, so it returns the
card at stored position 1 ("2C") and leaves the cursor at 2, whereas a
single `getNext()` returns the card at position 0 ("AC") and leaves the
cursor at 1; `deal` is therefore not equivalent to `amount` calls of
`getNext`.  Moreover `deal(30)` on a fresh deck reads past the end and
returns `undefined` entries. -/
theorem c1_deal_double_advance :
    (deal freshDeck 1).1 = [some { suit := 1, rank := 2, value := 1, mnemonic := "2C" }] ∧
      (deal freshDeck 1).2.top = 2 ∧
      (getNext freshDeck).1 = some { suit := 1, rank := 1, value := 0, mnemonic := "AC" } ∧
      (getNext freshDeck).2.top = 1 ∧
      (deal freshDeck 30).1.getLast? = some none := by
  decide

/-- Claim C3 (counterexample): `fromString` performs no range check on
the numeral, so "0C" and "14C" both parse successfully (with ranks 0
and 14), contradicting the claim that they fail. -/
theorem c3_counterexample :
    fromString "0C" = .ok { suit := 1, rank := 0, value := -1, mnemonic := "0C" } ∧
      fromString "14C" = .ok { suit := 1, rank := 14, value := 13, mnemonic := "14C" } := by
  decide

/-- Claim C4: decoding the encoded mnemonic of any of the 52 valid
(suit, rank) pairs returns exactly that suit and rank, with
`value = 13 * (suit - 1) + (rank - 1)` and the canonical mnemonic, so
encode and decode are mutually inverse on all 52 valid mnemonics. -/
theorem c4_decode_encode (s : Fin 4) (r : Fin 13) :
    fromString (getCardMnemonic (s.val + 1) (r.val + 1)) =
      .ok { suit := s.val + 1, rank := r.val + 1,
            value := 13 * (s.val : Int) + (r.val : Int),
            mnemonic := getCardMnemonic (s.val + 1) (r.val + 1) } := by
  revert s r
  decide

/-- Claim C5: shuffling with an explicitly supplied non-empty seed
whose length differs from the 52 cards fails with the
seed-length-mismatch error carrying the supplied and expected lengths;
the throw happens before any assignment to `seedHash`, `cards` or
`hash`, so the embedding returns the error without producing any
modified deck state. -/
theorem c5_seed_length_mismatch (d : Deck) (seed : List Int)
    (hne : seed ≠ []) (hlen : seed.length ≠ 52) (hcards : d.cards.length = 52) :
    shuffle d seed = some (.error (.seedLengthMismatch seed.length 52)) := by
  have hempty : seed.isEmpty = false := by
    cases seed with
    | nil => exact absurd rfl hne
    | cons a l => rfl
  unfold shuffle
  rw [hempty, hcards]
  simp [hlen]

/-- Witness for C5 at a concrete deck and seed. -/
theorem c5_witness :
    shuffle freshDeck [1, 2, 3] = some (.error (.seedLengthMismatch 3 52)) := by
  have h := c5_seed_length_mismatch freshDeck [1, 2, 3] (by decide) (by decide) (by decide)
  simpa using h

/-- Claim C9: once the cursor has reached 52 (all cards dealt),
`getNext()` reads past the end of `cards` — yielding no card
(`undefined`) — raises no error, and still increments the cursor, which
therefore grows without bound under repeated calls. -/
theorem c9_getNext_past_end (d : Deck) (k : Nat)
    (hlen : d.cards.length = 52) (htop : 52 ≤ d.top) :
    (getNext d).1 = none ∧ (getNext d).2.top = d.top + 1 ∧
      (iterGetNext k d).top = d.top + k := by
  refine ⟨?_, rfl, ?_⟩
  · exact List.getElem?_eq_none (by omega)
  · clear hlen htop
    induction k generalizing d with
    | zero => rfl
    | succ n ih =>
      show (iterGetNext n (getNext d).2).top = d.top + (n + 1)
      rw [ih]
      show d.top + 1 + n = d.top + (n + 1)
      omega

/-- Witness for C9 at a concrete exhausted deck. -/
theorem c9_witness :
    (getNext { freshDeck with top := 52 }).1 = none ∧
      (getNext { freshDeck with top := 52 }).2.top = 52 + 1 ∧
      (iterGetNext 3 { freshDeck with top := 52 }).top = 52 + 3 := by
  have h := c9_getNext_past_end { freshDeck with top := 52 } 3 (by decide) (by decide)
  simpa using h

/-- Claim C8 (counterexample): `fromString` stores the raw input string
as the card's `mnemonic`, so the accepted non-canonical spelling "as"
yields `mnemonic = "as"`, which differs from the canonical encoding
`getCardMnemonic 4 1 = "AS"`. -/
theorem c8_counterexample :
    fromString "as" = .ok { suit := 4, rank := 1, value := 39, mnemonic := "as" } ∧
      getCardMnemonic 4 1 = "AS" ∧ ("as" : String) ≠ "AS" := by
  decide

/-- Claim C8 (amended): for every input accepted by `fromString`, the
`mnemonic` field of the returned card is the input string exactly as
given (so it equals the canonical encoding only for canonically spelled
input). -/
theorem c8_mnemonic_is_input (m : String) (c : Card) (h : fromString m = .ok c) :
    c.mnemonic = m := by
  unfold fromString at h
  cases hm : matchMnemonic m with
  | none => rw [hm] at h; cases h
  | some p =>
    obtain ⟨rs, sc⟩ := p
    rw [hm] at h
    dsimp at h
    cases hs : suitOfChar sc.toUpper with
    | none => rw [hs] at h; cases h
    | some suit =>
      rw [hs] at h
      cases h
      rfl

/-- Witness for C8 applied at the concrete input "as". -/
theorem c8_witness :
    ({ suit := 4, rank := 1, value := 39, mnemonic := "as" } : Card).mnemonic = "as" :=
  c8_mnemonic_is_input "as" _ (by decide)

/-- The boolean rank group agrees with its declarative description. -/
theorem rankPart_iff (cs : List Char) :
    rankPart cs = true ↔
      ((∃ c, cs = [c] ∧ isRankLetter c = true) ∨ (cs ≠ [] ∧ ∀ c ∈ cs, c.isDigit = true)) := by
  cases cs with
  | nil => simp [rankPart]
  | cons c tl =>
    cases tl with
    | nil => simp [rankPart, Bool.or_eq_true]
    | cons c2 rest => simp [rankPart, List.all_eq_true]

/-- A successful regex match implies the declarative pattern. -/
theorem matchMnemonic_some_spec (m : String) (rs : String) (sc : Char)
    (h : matchMnemonic m = some (rs, sc)) : specPattern m := by
  unfold matchMnemonic at h
  cases hrev : m.data.reverse with
  | nil => rw [hrev] at h; cases h
  | cons x rrev =>
    rw [hrev] at h
    dsimp only at h
    by_cases hc : (isSuitChar x && rankPart rrev.reverse) = true
    · rw [if_pos hc] at h
      cases h
      have h1 : isSuitChar sc = true := ((Bool.and_eq_true _ _).mp hc).1
      have h2 : rankPart rrev.reverse = true := ((Bool.and_eq_true _ _).mp hc).2
      refine ⟨rrev.reverse, sc, ?_, h1, (rankPart_iff _).mp h2⟩
      have hmm : m.data = (m.data.reverse).reverse := (List.reverse_reverse _).symm
      rw [hmm, hrev]
      simp
    · rw [if_neg hc] at h
      cases h

/-- The declarative pattern implies a successful regex match, returning
the rank part and the suit letter. -/
theorem spec_matchMnemonic_some (m : String) (rcs : List Char) (sc : Char)
    (hdata : m.data = rcs ++ [sc]) (hsuit : isSuitChar sc = true)
    (hrank : rankPart rcs = true) :
    matchMnemonic m = some (String.mk rcs, sc) := by
  have hrev : m.data.reverse = sc :: rcs.reverse := by rw [hdata]; simp
  unfold matchMnemonic
  rw [hrev]
  simp [List.reverse_reverse, hsuit, hrank]

/-- Every accepted suit letter maps to a suit through `toUpperCase` and
the suit switch. -/
theorem isSuitChar_suitOf (c : Char) (h : isSuitChar c = true) :
    ∃ s, suitOfChar c.toUpper = some s := by
  simp only [isSuitChar, Bool.or_eq_true, decide_eq_true_eq] at h
  rcases h with ((((((h | h) | h) | h) | h) | h) | h) | h <;> subst h <;>
    first
    | exact ⟨1, by decide⟩
    | exact ⟨2, by decide⟩
    | exact ⟨3, by decide⟩
    | exact ⟨4, by decide⟩

/-- Claim C3 (amended): `fromString` succeeds exactly on the strings
matching the case-insensitive pattern (single rank letter A/J/Q/K, or a
non-empty digit string, followed by one suit letter C/D/H/S), and fails
with `invalidMnemonic` carrying the offending string on every other
input; no rank-range check is performed, so acceptance is not limited
to the 52 valid (suit, rank) pairs. -/
theorem c3_pattern_iff (m : String) :
    (specPattern m → ∃ c, fromString m = .ok c) ∧
      (¬ specPattern m → fromString m = .error (.invalidMnemonic m)) := by
  constructor
  · intro h
    obtain ⟨rcs, sc, hdata, hsuit, hrank⟩ := h
    have hm := spec_matchMnemonic_some m rcs sc hdata hsuit ((rankPart_iff _).mpr hrank)
    obtain ⟨s, hs⟩ := isSuitChar_suitOf sc hsuit
    unfold fromString
    rw [hm]
    dsimp
    rw [hs]
    exact ⟨_, rfl⟩
  · intro h
    cases hm : matchMnemonic m with
    | none => unfold fromString; rw [hm]
    | some p =>
      obtain ⟨rs, sc⟩ := p
      exact absurd (matchMnemonic_some_spec m rs sc hm) h

/-- Witness for C3: the non-canonical spelling "10h" matches the
pattern and is accepted. -/
theorem c3_witness : ∃ c, fromString "10h" = Except.ok c :=
  (c3_pattern_iff "10h").1 ⟨['1', '0'], 'h', by decide, by decide,
    Or.inr ⟨by decide, by decide⟩⟩

/-- JavaScript split never yields an empty token list. -/
theorem splitChars_ne_nil (cs : List Char) : splitChars cs ≠ [] := by
  cases cs with
  | nil => simp [splitChars]
  | cons c tl =>
    unfold splitChars
    cases h : splitChars tl with
    | nil => simp
    | cons g gs =>
      by_cases hc : c = '-' <;> simp [hc]

/-- Splitting a dash-free piece gives back just that piece. -/
theorem splitChars_no_dash (cs : List Char) (h : '-' ∉ cs) : splitChars cs = [cs] := by
  induction cs with
  | nil => rfl
  | cons c tl ih =>
    have hc : c ≠ '-' := fun heq => h (heq ▸ List.mem_cons_self c tl)
    have htl : '-' ∉ tl := fun hm => h (List.mem_cons_of_mem c hm)
    unfold splitChars
    rw [ih htl]
    simp [hc]

/-- Splitting a dash-free piece followed by a dash peels off exactly
that piece. -/
theorem splitChars_append_dash (t r : List Char) (h : '-' ∉ t) :
    splitChars (t ++ '-' :: r) = t :: splitChars r := by
  induction t with
  | nil =>
    show splitChars ('-' :: r) = [] :: splitChars r
    rw [splitChars]
    cases hr : splitChars r with
    | nil => exact absurd hr (splitChars_ne_nil r)
    | cons g gs => simp
  | cons c tl ih =>
    have hc : c ≠ '-' := fun heq => h (heq ▸ List.mem_cons_self c tl)
    have htl : '-' ∉ tl := fun hm => h (List.mem_cons_of_mem c hm)
    show splitChars (c :: (tl ++ '-' :: r)) = (c :: tl) :: splitChars r
    conv =>
      lhs
      rw [splitChars]
      rw [ih htl]
    simp [hc]

/-- Join then split is the identity on non-empty lists of dash-free
pieces. -/
theorem splitChars_intercal (ts : List (List Char)) (hne : ts ≠ [])
    (hdash : ∀ t ∈ ts, '-' ∉ t) : splitChars (intercalChars ts) = ts := by
  induction ts with
  | nil => exact absurd rfl hne
  | cons t rest ih =>
    cases rest with
    | nil =>
      show splitChars (intercalChars [t]) = [t]
      exact splitChars_no_dash t (hdash t (List.mem_cons_self t []))
    | cons t2 rest2 =>
      show splitChars (t ++ '-' :: intercalChars (t2 :: rest2)) = t :: t2 :: rest2
      rw [splitChars_append_dash t _ (hdash t (List.mem_cons_self t _))]
      rw [ih (by simp) (fun u hu => hdash u (List.mem_cons_of_mem t hu))]

/-- Join then split is the identity at the `String` level. -/
theorem jsSplitDash_joinDash (ts : List String) (hne : ts ≠ [])
    (hdash : ∀ t ∈ ts, '-' ∉ t.data) : jsSplitDash (joinDash ts) = ts := by
  unfold jsSplitDash joinDash
  show (splitChars (intercalChars (ts.map String.data))).map String.mk = ts
  rw [splitChars_intercal (ts.map String.data) (by simpa using hne)]
  · rw [List.map_map]
    have hid : (String.mk ∘ String.data) = id := by funext s; rfl
    rw [hid, List.map_id]
  · intro t ht
    obtain ⟨u, hu, rfl⟩ := List.mem_map.mp ht
    exact hdash u hu

/-- A rank letter is not a dash or a bracket. -/
theorem isRankLetter_ne (c : Char) (h : isRankLetter c = true) :
    c ≠ '-' ∧ c ≠ '[' ∧ c ≠ ']' := by
  simp only [isRankLetter, Bool.or_eq_true, decide_eq_true_eq] at h
  rcases h with ((((((h | h) | h) | h) | h) | h) | h) | h <;> subst h <;>
    exact ⟨by decide, by decide, by decide⟩

/-- A digit is not a dash or a bracket. -/
theorem isDigit_ne (c : Char) (h : c.isDigit = true) :
    c ≠ '-' ∧ c ≠ '[' ∧ c ≠ ']' := by
  refine ⟨?_, ?_, ?_⟩ <;> intro heq <;> subst heq <;> exact absurd h (by decide)

/-- A suit letter is not a dash or a bracket. -/
theorem isSuitChar_ne (c : Char) (h : isSuitChar c = true) :
    c ≠ '-' ∧ c ≠ '[' ∧ c ≠ ']' := by
  simp only [isSuitChar, Bool.or_eq_true, decide_eq_true_eq] at h
  rcases h with ((((((h | h) | h) | h) | h) | h) | h) | h <;> subst h <;>
    exact ⟨by decide, by decide, by decide⟩

/-- An accepted input successfully parsed by `fromString` matches the
declarative pattern. -/
theorem fromString_ok_spec (m : String) (c : Card) (h : fromString m = .ok c) :
    specPattern m := by
  unfold fromString at h
  cases hm : matchMnemonic m with
  | none => rw [hm] at h; cases h
  | some p =>
    obtain ⟨rs, sc⟩ := p
    exact matchMnemonic_some_spec m rs sc hm

/-- No character of an accepted mnemonic is a dash or a bracket. -/
theorem fromString_ok_chars (m : String) (c : Card) (h : fromString m = .ok c) :
    ∀ ch ∈ m.data, ch ≠ '-' ∧ ch ≠ '[' ∧ ch ≠ ']' := by
  obtain ⟨rcs, sc, hdata, hsuit, hrank⟩ := fromString_ok_spec m c h
  intro ch hch
  rw [hdata] at hch
  rcases List.mem_append.mp hch with hin | hin
  · rcases hrank with ⟨d, rfl, hd⟩ | ⟨_, hall⟩
    · rw [List.mem_singleton.mp hin]
      exact isRankLetter_ne _ hd
    · exact isDigit_ne _ (hall ch hin)
  · rw [List.mem_singleton.mp hin]
    exact isSuitChar_ne _ hsuit

/-- An accepted mnemonic does not pass the bracket test of the
restoration loop. -/
theorem fromString_ok_not_bracketed (m : String) (c : Card) (h : fromString m = .ok c) :
    bracketed m = false := by
  have hch := fromString_ok_chars m c h
  unfold bracketed
  cases hd : m.data with
  | nil => rfl
  | cons x tl =>
    have hx : x ≠ '[' :=
      (hch x (by rw [hd]; exact List.mem_cons_self _ _)).2.1
    simp [hx]

/-- Wrapping in square brackets passes the bracket test. -/
theorem bracketed_wrap (m : String) : bracketed ("[" ++ m ++ "]") = true := by
  unfold bracketed
  have hdat : ("[" ++ m ++ "]").data = ('[' :: m.data) ++ [']'] := by
    simp [String.data_append]
  rw [hdat]
  have h2 : ('[' :: (m.data ++ [']'])).getLast? = some ']' := List.getLast?_concat ('[' :: m.data)
  simp [h2]

/-- Stripping the brackets recovers the wrapped token. -/
theorem stripBrackets_wrap (m : String) : stripBrackets ("[" ++ m ++ "]") = m := by
  unfold stripBrackets
  have hdat : ("[" ++ m ++ "]").data = '[' :: (m.data ++ [']']) := by
    simp [String.data_append]
  rw [hdat]
  show String.mk (m.data ++ [']']).dropLast = m
  rw [List.dropLast_concat]

/-- `toString` emits one token per card. -/
theorem tokensFrom_length (cs : List Card) (i top : Nat) :
    (tokensFrom cs i top).length = cs.length := by
  induction cs generalizing i with
  | nil => rfl
  | cons c rest ih =>
    show (tokensFrom (c :: rest) i top).length = rest.length + 1
    unfold tokensFrom
    simp [ih]

/-- No `toString` token contains a dash. -/
theorem tokensFrom_no_dash (cs : List Card) (i top : Nat)
    (hwf : ∀ c ∈ cs, fromString c.mnemonic = .ok c) :
    ∀ t ∈ tokensFrom cs i top, '-' ∉ t.data := by
  induction cs generalizing i with
  | nil => intro t ht; cases ht
  | cons c rest ih =>
    intro t ht
    have hok := hwf c (List.mem_cons_self _ _)
    have hch := fromString_ok_chars c.mnemonic c hok
    rcases List.mem_cons.mp ht with rfl | ht2
    · by_cases hi : i = top
      · rw [if_pos hi]
        intro hmem
        have hdat : ("[" ++ c.mnemonic ++ "]").data = '[' :: (c.mnemonic.data ++ [']']) := by
          simp [String.data_append]
        rw [hdat] at hmem
        rcases List.mem_cons.mp hmem with heq | hmem2
        · cases heq
        · rcases List.mem_append.mp hmem2 with hin | hin
          · exact (hch '-' hin).1 rfl
          · rcases List.mem_singleton.mp hin with h
            cases h
      · rw [if_neg hi]
        intro hmem
        exact (hch '-' hmem).1 rfl
    · exact ih (i + 1) (fun u hu => hwf u (List.mem_cons_of_mem c hu)) t ht2

/-- Restoring tokens whose bracket (if any) lies outside the covered
index range parses every card back and keeps the accumulated cursor. -/
theorem parseTokens_no_hit (cs : List Card) (i tp top : Nat)
    (hwf : ∀ c ∈ cs, fromString c.mnemonic = .ok c)
    (hmiss : top < i ∨ i + cs.length ≤ top) :
    parseTokens (tokensFrom cs i top) i tp = .ok (cs, tp) := by
  induction cs generalizing i with
  | nil => rfl
  | cons c rest ih =>
    have hok := hwf c (List.mem_cons_self _ _)
    have hlen : (c :: rest).length = rest.length + 1 := rfl
    have hne : i ≠ top := by omega
    show parseTokens
        ((if i = top then "[" ++ c.mnemonic ++ "]" else c.mnemonic) :: tokensFrom rest (i + 1) top)
        i tp = .ok (c :: rest, tp)
    rw [if_neg hne]
    unfold parseTokens
    rw [fromString_ok_not_bracketed c.mnemonic c hok]
    dsimp
    rw [hok]
    rw [ih (i + 1) (fun u hu => hwf u (List.mem_cons_of_mem c hu)) (by omega)]

/-- Restoring tokens whose bracket falls inside the covered range
parses every card back and sets the cursor to the bracket's index. -/
theorem parseTokens_hit (cs : List Card) (i tp top : Nat)
    (hwf : ∀ c ∈ cs, fromString c.mnemonic = .ok c)
    (hge : i ≤ top) (hlt : top < i + cs.length) :
    parseTokens (tokensFrom cs i top) i tp = .ok (cs, top) := by
  induction cs generalizing i tp with
  | nil => simp only [List.length_nil] at hlt; omega
  | cons c rest ih =>
    have hok := hwf c (List.mem_cons_self _ _)
    have hlen : (c :: rest).length = rest.length + 1 := rfl
    have hwf2 : ∀ u ∈ rest, fromString u.mnemonic = .ok u :=
      fun u hu => hwf u (List.mem_cons_of_mem c hu)
    show parseTokens
        ((if i = top then "[" ++ c.mnemonic ++ "]" else c.mnemonic) :: tokensFrom rest (i + 1) top)
        i tp = .ok (c :: rest, top)
    by_cases hi : i = top
    · rw [if_pos hi]
      unfold parseTokens
      rw [bracketed_wrap]
      dsimp
      rw [stripBrackets_wrap, hok]
      rw [parseTokens_no_hit rest (i + 1) i top hwf2 (Or.inl (by omega))]
      rw [hi]
    · rw [if_neg hi]
      unfold parseTokens
      rw [fromString_ok_not_bracketed c.mnemonic c hok]
      dsimp
      rw [hok]
      rw [ih (i + 1) tp hwf2 (by omega) (by omega)]

/-- Joining at least two tokens never gives the empty string. -/
theorem joinDash_ne_empty (t1 t2 : String) (rest : List String) :
    joinDash (t1 :: t2 :: rest) ≠ "" := by
  intro h
  have hdat : (joinDash (t1 :: t2 :: rest)).data = [] := by rw [h]
  unfold joinDash intercalChars at hdat
  simp at hdat

/-- Claim C2 (amended): restoring `toString()` output reconstructs a
deck with identical cards and identical hash; the cursor is preserved
whenever `top < 52`, but an exhausted deck (`top = 52`) brackets no
token, so restoration resets the cursor to 0.  The hypotheses say the
deck is one the class can actually build: every card parses back to
itself, there are 52 cards, and `hash` is the digest of the joined
mnemonics. -/
theorem c2_roundtrip (d : Deck)
    (hwf : ∀ c ∈ d.cards, fromString c.mnemonic = .ok c)
    (hlen : d.cards.length = 52)
    (hhash : d.hash = Digest.sha256 (cardsAsString d.cards))
    (htop : d.top ≤ 52) :
    mkDeck (some (Deck.serialize d)) = .ok
      { cards := d.cards, hash := d.hash, seedHash := Digest.zeroHash,
        top := if d.top < 52 then d.top else 0 } := by
  have hlen2 : (tokensFrom d.cards 0 d.top).length = 52 := by
    rw [tokensFrom_length, hlen]
  obtain ⟨t1, t2, rest, htoks⟩ :
      ∃ t1 t2 rest, tokensFrom d.cards 0 d.top = t1 :: t2 :: rest := by
    cases h1 : tokensFrom d.cards 0 d.top with
    | nil => rw [h1] at hlen2; simp at hlen2
    | cons u1 tl =>
      cases tl with
      | nil => rw [h1] at hlen2; simp at hlen2
      | cons u2 rest => exact ⟨u1, u2, rest, rfl⟩
  have hsne : Deck.serialize d ≠ "" := by
    unfold Deck.serialize
    rw [htoks]
    exact joinDash_ne_empty t1 t2 rest
  have hsplit : jsSplitDash (Deck.serialize d) = tokensFrom d.cards 0 d.top := by
    unfold Deck.serialize
    exact jsSplitDash_joinDash _ (by rw [htoks]; simp)
      (tokensFrom_no_dash d.cards 0 d.top hwf)
  simp only [mkDeck]
  rw [if_neg hsne]
  rw [hsplit]
  rw [if_neg (by rw [hlen2]; exact fun h => h rfl)]
  by_cases htlt : d.top < 52
  · rw [parseTokens_hit d.cards 0 0 d.top hwf (Nat.zero_le _) (by omega)]
    dsimp only
    rw [← hhash, if_pos htlt]
  · rw [parseTokens_no_hit d.cards 0 0 d.top hwf (Or.inr (by omega))]
    dsimp only
    rw [← hhash, if_neg htlt]

/-- Witness for C2 at a concrete deck with cursor 5. -/
theorem c2_witness :
    mkDeck (some (Deck.serialize { freshDeck with top := 5 })) = .ok
      { cards := freshDeck.cards, hash := freshDeck.hash,
        seedHash := Digest.zeroHash, top := 5 } := by
  have h := c2_roundtrip { freshDeck with top := 5 }
    (by decide) (by decide) (by decide) (by decide)
  simpa using h

set_option maxRecDepth 10000 in
/-- Claim C2 (counterexample): for an exhausted deck (`top = 52`) the
serialized string brackets no token, so restoring it yields cursor 0,
not 52 — the round trip does not preserve `top` there. -/
theorem c2_counterexample :
    (mkDeck (some (Deck.serialize { freshDeck with top := 52 }))).map Deck.top =
        .ok 0 ∧
      ({ freshDeck with top := 52 } : Deck).top = 52 := by
  decide

/-- Replacing the slot at `m` while putting its old occupant on top is
a permutation of pushing the new element on top. -/
theorem head_set_perm {A : Type} (tl : List A) (m : Nat) (h : m < tl.length) (a : A) :
    List.Perm (tl[m] :: tl.set m a) (a :: tl) := by
  induction tl generalizing m with
  | nil => simp at h
  | cons b r ih =>
    cases m with
    | zero => exact List.Perm.swap a b r
    | succ k =>
      have hk : k < r.length := by simpa using h
      show List.Perm (r[k] :: b :: r.set k a) (a :: b :: r)
      refine List.Perm.trans (List.Perm.swap b (r[k]) (r.set k a)) ?_
      refine List.Perm.trans (List.Perm.cons b (ih k hk)) ?_
      exact List.Perm.swap a b r

/-- Exchanging the occupants of two in-range slots permutes the list. -/
theorem set_set_swap_perm {A : Type} (l : List A) (i j : Nat)
    (hi : i < l.length) (hj : j < l.length) :
    List.Perm ((l.set i (l[j])).set j (l[i])) l := by
  induction l generalizing i j with
  | nil => simp at hi
  | cons a tl ih =>
    cases i with
    | zero =>
      cases j with
      | zero => simp
      | succ m =>
        have hm : m < tl.length := by simpa using hj
        show List.Perm (tl[m] :: tl.set m a) (a :: tl)
        exact head_set_perm tl m hm a
    | succ n =>
      cases j with
      | zero =>
        have hn : n < tl.length := by simpa using hi
        show List.Perm (tl[n] :: tl.set n a) (a :: tl)
        exact head_set_perm tl n hn a
      | succ m =>
        have hn : n < tl.length := by simpa using hi
        have hm : m < tl.length := by simpa using hj
        show List.Perm (a :: (tl.set n (tl[m])).set m (tl[n])) (a :: tl)
        exact List.Perm.cons a (ih n m hn hm)

/-- The JavaScript swap with an in-range non-negative second index is a
permutation of the array. -/
theorem jsSwap_perm (arr : List (Option Card)) (i : Nat) (j : Int)
    (hi : i < arr.length) (hj : 0 <= j) (hjl : j.toNat < arr.length) :
    List.Perm (jsSwap arr i j) arr := by
  have hneg : ¬ j < 0 := by omega
  have hvj : jsGet arr j = arr[j.toNat] := by
    unfold jsGet
    simp [hneg, List.getD_eq_getElem?_getD, List.getElem?_eq_getElem hjl]
  have hvi : arr.getD i none = arr[i] := by
    simp [List.getD_eq_getElem?_getD, List.getElem?_eq_getElem hi]
  have hswap : jsSwap arr i j = (arr.set i (arr[j.toNat])).set j.toNat (arr[i]) := by
    unfold jsSwap jsSet
    rw [hvj, hvi, if_neg hneg]
  rw [hswap]
  exact set_set_swap_perm arr i j.toNat hi hjl

/-- The JavaScript swap preserves the array length. -/
theorem jsSwap_length (arr : List (Option Card)) (i : Nat) (j : Int) :
    (jsSwap arr i j).length = arr.length := by
  unfold jsSwap jsSet jsGet
  by_cases hj : j < 0 <;> simp [hj]

/-- The shuffle loop preserves the array length. -/
theorem fyLoop_length (seed : List Int) (arr : List (Option Card)) (n : Nat) :
    (fyLoop seed arr n).length = arr.length := by
  induction n generalizing arr with
  | zero => rfl
  | succ k ih =>
    show (fyLoop seed (jsSwap arr (k + 1) _) k).length = arr.length
    rw [ih, jsSwap_length]

/-- The swap at step `i` leaves all indices above `i` untouched. -/
theorem jsSwap_getElem_high (arr : List (Option Card)) (i : Nat) (j : Int) (idx : Nat)
    (hi : i < idx) (hj : j < (i : Int) + 1) :
    (jsSwap arr i j)[idx]? = arr[idx]? := by
  unfold jsSwap jsGet jsSet
  by_cases hneg : j < 0
  · simp only [if_pos hneg]
    rw [List.getElem?_set_ne (by omega : i ≠ idx)]
  · have hji : j.toNat ≤ i := by omega
    simp only [if_neg hneg]
    rw [List.getElem?_set_ne (by omega : j.toNat ≠ idx),
      List.getElem?_set_ne (by omega : i ≠ idx)]

/-- The shuffle loop with counter `n` leaves all indices above `n`
untouched. -/
theorem fyLoop_getElem_high (seed : List Int) (arr : List (Option Card)) (n idx : Nat)
    (h : n < idx) : (fyLoop seed arr n)[idx]? = arr[idx]? := by
  induction n generalizing arr with
  | zero => rfl
  | succ k ih =>
    show (fyLoop seed (jsSwap arr (k + 1) (Int.tmod (seed.getD (k + 1) 0) ((k : Int) + 2))) k)[idx]? =
      arr[idx]?
    rw [ih _ (by omega)]
    exact jsSwap_getElem_high arr (k + 1) _ idx (by omega)
      (Int.tmod_lt_of_pos _ (by omega))

/-- If the shuffle loop ends with every slot still holding a card, it
permuted the array (each step was an in-range swap). -/
theorem fyLoop_perm (seed : List Int) (arr : List (Option Card)) (n : Nat)
    (hn : n < arr.length)
    (hall : ∀ x ∈ fyLoop seed arr n, x.isSome) :
    List.Perm (fyLoop seed arr n) arr := by
  induction n generalizing arr with
  | zero => exact List.Perm.refl arr
  | succ k ih =>
    by_cases hneg : Int.tmod (seed.getD (k + 1) 0) ((k : Int) + 2) < 0
    · exfalso
      have harr : jsSwap arr (k + 1) (Int.tmod (seed.getD (k + 1) 0) ((k : Int) + 2)) =
          arr.set (k + 1) none := by
        unfold jsSwap jsGet jsSet
        simp only [if_pos hneg]
      have hidx : (fyLoop seed arr (k + 1))[k + 1]? = some none := by
        show (fyLoop seed (jsSwap arr (k + 1) (Int.tmod (seed.getD (k + 1) 0) ((k : Int) + 2))) k)[k + 1]? =
          some none
        rw [fyLoop_getElem_high seed _ k (k + 1) (by omega), harr]
        exact List.getElem?_set_self (by simpa using hn)
      have hmem : (none : Option Card) ∈ fyLoop seed arr (k + 1) :=
        List.getElem?_mem hidx
      have := hall _ hmem
      simp at this
    · have hperm1 : List.Perm (jsSwap arr (k + 1) (Int.tmod (seed.getD (k + 1) 0) ((k : Int) + 2))) arr :=
        jsSwap_perm arr (k + 1) _ hn (by omega)
          (by
            have := Int.tmod_lt_of_pos (seed.getD (k + 1) 0) (by omega : (0 : Int) < (k : Int) + 2)
            omega)
      have hlen2 : k < (jsSwap arr (k + 1) (Int.tmod (seed.getD (k + 1) 0) ((k : Int) + 2))).length := by
        rw [jsSwap_length]; omega
      have hstep := ih (jsSwap arr (k + 1) (Int.tmod (seed.getD (k + 1) 0) ((k : Int) + 2))) hlen2 hall
      exact hstep.trans hperm1

/-- A fully defined option array is the image of its card list. -/
theorem optList_eq_some (arr : List (Option Card)) (cs : List Card)
    (h : optList arr = some cs) : arr = cs.map some := by
  induction arr generalizing cs with
  | nil =>
    unfold optList at h
    cases h
    rfl
  | cons o tl ih =>
    cases o with
    | none => cases h
    | some c =>
      unfold optList at h
      cases htl : optList tl with
      | none => rw [htl] at h; cases h
      | some cs2 =>
        rw [htl] at h
        cases h
        simp [ih cs2 htl]

/-- Collapsing an image of `some` succeeds. -/
theorem optList_map_some (cs : List Card) : optList (cs.map some) = some cs := by
  induction cs with
  | nil => rfl
  | cons c tl ih =>
    show (optList (tl.map some)).map (fun u => c :: u) = some (c :: tl)
    rw [ih]
    rfl

/-- A permutation of `some`-images is a permutation of the lists. -/
theorem perm_of_map_some (l1 l2 : List Card)
    (h : List.Perm (l1.map some) (l2.map some)) : List.Perm l1 l2 := by
  apply List.perm_iff_count.mpr
  intro x
  have hc := List.perm_iff_count.mp h (some x)
  rwa [List.count_map_of_injective l1 some (fun a b => by simp),
    List.count_map_of_injective l2 some (fun a b => by simp)] at hc

/-- A successful shuffle permutes the cards. -/
theorem shuffle_ok_perm (d : Deck) (seed : List Int) (d2 : Deck)
    (h : shuffle d seed = some (.ok d2)) : List.Perm d2.cards d.cards := by
  unfold shuffle at h
  by_cases he : seed.isEmpty
  · rw [if_pos he] at h; cases h
  · rw [if_neg he] at h
    by_cases hl : seed.length ≠ d.cards.length
    · rw [if_pos hl] at h; cases h
    · rw [if_neg hl] at h
      dsimp at h
      cases hopt : optList (fyLoop seed (d.cards.map some) (d.cards.length - 1)) with
      | none => rw [hopt] at h; cases h
      | some cs =>
        rw [hopt] at h
        cases h
        have heq := optList_eq_some _ cs hopt
        have hpos : 0 < d.cards.length := by
          rcases seed with _ | ⟨a, tl⟩
          · simp at he
          · push_neg at hl
            rw [← hl]
            simp
        have hperm := fyLoop_perm seed (d.cards.map some) (d.cards.length - 1)
          (by simpa using (by omega : d.cards.length - 1 < d.cards.length))
          (by
            rw [heq]
            intro x hx
            rcases List.mem_map.mp hx with ⟨u, _, rfl⟩
            rfl)
        rw [heq] at hperm
        exact perm_of_map_some cs d.cards hperm

/-- Claim C7 (amended): the cards are a permutation of the full
standard 52-card deck after fresh construction, and every successful
shuffle preserves that invariant; restoration from a string, however,
does not check distinctness (see the counterexample), so the invariant
holds for restored decks only when the input string itself encodes a
permutation. -/
theorem c7_perm_invariant (d : Deck) (seed : List Int) (d2 : Deck)
    (hd : List.Perm d.cards standardCards)
    (hs : shuffle d seed = some (.ok d2)) :
    List.Perm freshDeck.cards standardCards ∧ List.Perm d2.cards standardCards :=
  ⟨List.Perm.refl _, (shuffle_ok_perm d seed d2 hs).trans hd⟩

/-- Witness for C7: shuffling a fresh deck with a concrete varied seed
yields a permutation of the standard deck. -/
theorem c7_witness :
    List.Perm freshDeck.cards standardCards ∧ List.Perm deckW.cards standardCards :=
  c7_perm_invariant freshDeck seedW deckW (List.Perm.refl _) (by decide)

set_option maxRecDepth 10000 in
/-- Claim C7 (counterexample): restoration performs no distinctness
check, so a string of 52 copies of "AC" is accepted and produces a deck
whose cards are 52 aces of clubs — not a permutation of the standard
deck. -/
theorem c7_counterexample :
    (mkDeck (some (joinDash (List.replicate 52 "AC")))).map Deck.cards =
        .ok (List.replicate 52 { suit := 1, rank := 1, value := 0, mnemonic := "AC" }) ∧
      ¬ List.Perm
          (List.replicate 52 { suit := 1, rank := 1, value := 0, mnemonic := "AC" : Card })
          standardCards := by
  decide

/-- Exchanging two in-range slots keeps the list length. -/
theorem swapL_length (l : List Card) (i j : Nat) : (swapL l i j).length = l.length := by
  unfold swapL
  cases h1 : l[i]? <;> cases h2 : l[j]? <;> simp

/-- On a fully defined array, the JavaScript swap with a non-negative
index is the spec's swap of the underlying cards. -/
theorem jsSwap_map_some (l : List Card) (i : Nat) (j : Int)
    (hi : i < l.length) (hj : 0 <= j) (hjl : j.toNat < l.length) :
    jsSwap (l.map some) i j = (swapL l i j.toNat).map some := by
  have hneg : ¬ j < 0 := by omega
  have hvj : jsGet (l.map some) j = some (l[j.toNat]) := by
    unfold jsGet
    rw [if_neg hneg]
    simp [List.getD_eq_getElem?_getD, List.getElem?_eq_getElem hjl]
  have hvi : (l.map some).getD i none = some (l[i]) := by
    simp [List.getD_eq_getElem?_getD, List.getElem?_eq_getElem hi]
  unfold jsSwap jsSet
  rw [hvi, hvj, if_neg hneg]
  unfold swapL
  rw [List.getElem?_eq_getElem hi, List.getElem?_eq_getElem hjl]
  dsimp only
  rw [List.map_set, List.map_set]

/-- On a fully defined array with a non-negative seed, the source loop
computes exactly the spec's Fisher-Yates permutation. -/
theorem fyLoop_spec (seed : List Int) (l : List Card) (n : Nat)
    (hn : n < l.length) (hpos : ∀ x ∈ seed, 0 <= x) :
    fyLoop seed (l.map some) n = (specFYAux seed l n).map some := by
  induction n generalizing l with
  | zero => rfl
  | succ k ih =>
    have hs : 0 <= seed.getD (k + 1) 0 := by
      rw [List.getD_eq_getElem?_getD]
      cases hv : seed[k + 1]? with
      | none => simp
      | some v =>
        have := hpos v (List.getElem?_mem hv)
        simpa using this
    have htm : Int.tmod (seed.getD (k + 1) 0) ((k : Int) + 2) =
        Int.emod (seed.getD (k + 1) 0) ((k : Int) + 2) :=
      Int.tmod_eq_emod hs (by omega)
    have hj0 : 0 <= Int.tmod (seed.getD (k + 1) 0) ((k : Int) + 2) :=
      Int.tmod_nonneg _ hs
    have hjlt : Int.tmod (seed.getD (k + 1) 0) ((k : Int) + 2) < (k : Int) + 2 :=
      Int.tmod_lt_of_pos _ (by omega)
    have hjl : (Int.tmod (seed.getD (k + 1) 0) ((k : Int) + 2)).toNat < l.length := by
      omega
    show fyLoop seed
        (jsSwap (l.map some) (k + 1) (Int.tmod (seed.getD (k + 1) 0) ((k : Int) + 2))) k =
      (specFYAux seed
        (swapL l (k + 1) ((Int.emod (seed.getD (k + 1) 0) ((k : Int) + 2)).toNat)) k).map some
    rw [jsSwap_map_some l (k + 1) _ hn hj0 hjl]
    rw [← htm]
    exact ih (swapL l (k + 1) _) (by rw [swapL_length]; omega)

/-- A supplied 52-entry non-negative seed drives `shuffle` to the spec's
Fisher-Yates permutation, with both hashes recomputed and the cursor
untouched. -/
theorem shuffle_spec (d : Deck) (seed : List Int)
    (hlen : d.cards.length = 52) (hslen : seed.length = 52)
    (hpos : ∀ x ∈ seed, 0 <= x) :
    shuffle d seed = some (.ok
      { cards := specFY seed d.cards,
        hash := Digest.sha256 (cardsAsString (specFY seed d.cards)),
        seedHash := Digest.sha256 (seedAsString seed),
        top := d.top }) := by
  have hne : seed.isEmpty = false := by
    cases seed with
    | nil => simp at hslen
    | cons a tl => rfl
  unfold shuffle
  rw [if_neg (by simp [hne] : ¬(seed.isEmpty = true))]
  rw [if_neg (show ¬ seed.length ≠ d.cards.length by rw [hslen, hlen]; exact fun h => h rfl)]
  dsimp only
  rw [fyLoop_spec seed d.cards (d.cards.length - 1) (by omega) hpos]
  rw [optList_map_some]
  rfl

/-- Claim C6 (amended): for every supplied seed of exactly 52
non-negative integers, `shuffle` applies exactly the stated Fisher-Yates
permutation — for `i` from 51 down to 1, swap positions `i` and
`seed[i] mod (i+1)` — so shuffling two decks holding the same card
order with the same seed produces identical resulting card order and
identical hash. -/
theorem c6_fisher_yates (d d2 : Deck) (seed : List Int)
    (hlen : d.cards.length = 52) (hslen : seed.length = 52)
    (hpos : ∀ x ∈ seed, 0 <= x) (heq : d2.cards = d.cards) :
    shuffle d seed = some (.ok
      { cards := specFY seed d.cards,
        hash := Digest.sha256 (cardsAsString (specFY seed d.cards)),
        seedHash := Digest.sha256 (seedAsString seed),
        top := d.top }) ∧
    shuffle d2 seed = some (.ok
      { cards := specFY seed d.cards,
        hash := Digest.sha256 (cardsAsString (specFY seed d.cards)),
        seedHash := Digest.sha256 (seedAsString seed),
        top := d2.top }) := by
  refine ⟨shuffle_spec d seed hlen hslen hpos, ?_⟩
  have h2 := shuffle_spec d2 seed (by rw [heq, hlen]) hslen hpos
  rw [heq] at h2
  exact h2

set_option maxRecDepth 10000 in
/-- Claim C6 (counterexample): a 52-integer seed may contain negative
entries; JavaScript `%` then yields a negative index, the swap writes
`undefined` into the card array, and the subsequent hash computation
crashes — no Fisher-Yates permutation is applied at all. -/
theorem c6_counterexample :
    (List.replicate 51 (0 : Int) ++ [-1]).length = 52 ∧
      shuffle freshDeck (List.replicate 51 (0 : Int) ++ [-1]) =
        some (.error DeckErr.undefinedRead) := by
  decide

/-- Witness for C6: shuffling with the concrete non-negative seed
`seedW` lands exactly on the spec permutation. -/
theorem c6_witness :
    shuffle freshDeck seedW = some (.ok
      { cards := specFY seedW standardCards,
        hash := Digest.sha256 (cardsAsString (specFY seedW standardCards)),
        seedHash := Digest.sha256 (seedAsString seedW),
        top := 0 }) :=
  (c6_fisher_yates freshDeck freshDeck seedW (by decide) (by decide) (by decide) rfl).1

end Block52
